import Mathlib

/-!
Verification of the VRDF conversion service core
(`controllers/vrdf_controller.py`): the label-channel decomposition,
the filename/naming contract, and the segmentation-and-conversion
pipeline with its cleanup policy.

Arrays are modelled shallowly: a 3D array is a dims triple together
with a total valuation function; values are rationals (binary floats
are rationals, and every numeric fact claimed is exact).  Python/numpy
behaviour is translated operation by operation from the source.
-/

namespace VRDF

/-- Truncation toward zero of a rational, modelling numpy's
`astype(np.int32)` float-to-int conversion (C truncation) for values in
the int32 range.  Computed on the reduced numerator/denominator, so it
is kernel-reducible. -/
def truncQ (q : ℚ) : ℤ :=
  if 0 ≤ q.num then ((q.num.toNat / q.den : ℕ) : ℤ)
  else -(((-q.num).toNat / q.den : ℕ) : ℤ)

/-- A dense 3D array: dims (H, W, Z) plus a total valuation.  Only the
values at indices inside `dims` are meaningful. -/
structure Arr3 where
  dims : ℕ × ℕ × ℕ
  val : ℕ × ℕ × ℕ → ℚ

/-- The integer labelmap obtained from the raw (float) segmentation
array by `seg.astype(np.int32)` (line 64 of the controller). -/
def segInt (seg : Arr3) (p : ℕ × ℕ × ℕ) : ℤ := truncQ (seg.val p)

/-- A 3D boolean mask, as produced by `seg == lab`. -/
structure Mask3 where
  dims : ℕ × ℕ × ℕ
  val : ℕ × ℕ × ℕ → Bool

/-- The mask `(seg == lab)` of line 73: shape of `seg`, true where the
cast labelmap equals `lab`. -/
def mkMask (seg : Arr3) (lab : ℤ) : Mask3 :=
  ⟨seg.dims, fun p => decide (segInt seg p = lab)⟩

/-- Index lies strictly inside the dims triple. -/
def inBounds (d p : ℕ × ℕ × ℕ) : Prop :=
  p.1 < d.1 ∧ p.2.1 < d.2.1 ∧ p.2.2 < d.2.2

instance (d p : ℕ × ℕ × ℕ) : Decidable (inBounds d p) := by
  unfold inBounds; infer_instance

/-- Boolean in-bounds test. -/
def inBoundsB (d p : ℕ × ℕ × ℕ) : Bool :=
  decide (p.1 < d.1) && decide (p.2.1 < d.2.1) && decide (p.2.2 < d.2.2)

/-- Model of `np.any(mask)` (line 78): true iff some voxel inside the mask's
own dims is set. -/
def maskAny (m : Mask3) : Bool :=
  (List.range m.dims.1).any fun i =>
    (List.range m.dims.2.1).any fun j =>
      (List.range m.dims.2.2).any fun k => m.val (i, j, k)

/-- A dense 4D array (H, W, Z, S): the channel volume. -/
structure Arr4 where
  dims : ℕ × ℕ × ℕ × ℕ
  val : ℕ × ℕ × ℕ → ℕ → ℚ

/-- The fixed label set of the controller (line 18). -/
def LABELS : List ℤ := [0, 1, 2, 3]

/-- Failure of the decomposition loop: numpy raises an `IndexError`
when a boolean mask used to index an array has a different shape. -/
inductive SegError where
  | indexShapeMismatch
deriving DecidableEq

/-- The channel volume built by lines 76-79: zero-initialized
(H, W, Z, S); channel `s` receives `vol` at voxels where the mask for
`labels[s]` is set, and only when that mask is non-empty (the
`np.any(mask)` guard) — positions outside the mask's bounds are never
assigned. -/
def decomposeOut (vol seg : Arr3) (labels : List ℤ) : Arr4 :=
  { dims := (vol.dims.1, vol.dims.2.1, vol.dims.2.2, labels.length)
    val := fun p s =>
      if h : s < labels.length then
        let m := mkMask seg (labels.get ⟨s, h⟩)
        if maskAny m && m.val p && inBoundsB m.dims p then vol.val p else 0
      else 0 }

/-- The decomposition of lines 63-79: per label build the mask
`seg == lab`; whenever a non-empty mask is used to index `vol` (and
`out`) while its shape differs from `vol`'s, numpy raises; otherwise
the zero-initialized output receives `vol` at masked voxels of each
channel.  Empty masks are skipped by the `np.any` guard, so a shape
mismatch with no matching voxel goes unnoticed. -/
def decompose (vol seg : Arr3) (labels : List ℤ) : Except SegError Arr4 :=
  if labels.any (fun lab => maskAny (mkMask seg lab) && decide (seg.dims ≠ vol.dims)) then
    Except.error SegError.indexShapeMismatch
  else
    Except.ok (decomposeOut vol seg labels)

/-! Naming contract.  Filenames are lists of characters; string
literals of the source appear as `"...".data`. -/

/-- Test that `s` starts with `p` (list-of-chars check used to model Python
substring scanning). -/
def startsWithL (p s : List Char) : Bool := decide (s.take p.length = p)

/-- Test that `s` ends with `p`: the model of the end-anchored regex match
`...$` (case-sensitive, anchored at the end of the string). -/
def endsWithL (p s : List Char) : Bool :=
  decide (s.drop (s.length - p.length) = p)

/-- Test that `p` occurs as a contiguous substring of `s`. -/
def occursIn (p s : List Char) : Bool :=
  (List.range (s.length + 1)).any fun i => startsWithL p (s.drop i)

/-- Property that `p` has no proper border: no non-trivial prefix of `p` is also a
suffix of `p`.  Holds for every `-<modality>.nii.gz` pattern. -/
def borderFree (p : List Char) : Prop :=
  ∀ k, k < p.length → 0 < k → p.drop (p.length - k) ≠ p.take k

instance (p : List Char) : Decidable (borderFree p) := by
  unfold borderFree; infer_instance

/-- Fuel-indexed worker for `stripAll` (structural recursion on the
fuel so that the kernel can evaluate it). -/
def stripAllAux (p : List Char) : ℕ → List Char → List Char
  | 0, s => s
  | _ + 1, [] => []
  | n + 1, c :: rest =>
    if startsWithL p (c :: rest) && !p.isEmpty then
      stripAllAux p n ((c :: rest).drop p.length)
    else
      c :: stripAllAux p n rest

/-- Python's `s.replace(p, '')`: delete every non-overlapping
occurrence of `p` from `s`, scanning left to right. -/
def stripAll (p s : List Char) : List Char := stripAllAux p s.length s

/-- The modality alternation of the regex on line 23, in alternation
order. -/
def MODS : List (List Char) := ["t1n".data, "t1c".data, "t2w".data, "t2f".data]

/-- The full suffix pattern a filename must end with:
`-<modality>.nii.gz`. -/
def modSuffix (m : List Char) : List Char := '-' :: (m ++ ".nii.gz".data)

/-- Model of `extract_modality_from_filename` (lines 20-26): the end-anchored
regex search succeeds iff the filename ends with `-<m>.nii.gz` for one
of the four modality tokens, tried in alternation order; `none` models
the raised `ValueError`.  The function is pure: it touches no file. -/
def extract_modality_from_filename (f : List Char) : Option (List Char) :=
  if endsWithL (modSuffix "t1n".data) f then some "t1n".data
  else if endsWithL (modSuffix "t1c".data) f then some "t1c".data
  else if endsWithL (modSuffix "t2w".data) f then some "t2w".data
  else if endsWithL (modSuffix "t2f".data) f then some "t2f".data
  else none

/-- Model of `base_name` (line 82 / line 156):
`filename.replace(f'-{modality}.nii.gz', '')` — Python `replace`
deletes every occurrence, not only the trailing one. -/
def base_name (f m : List Char) : List Char := stripAll (modSuffix m) f

/-- Model of `segmented_filename` (line 83): `{base}-segmented-{modality}.nii.gz`. -/
def segmented_filename (f m : List Char) : List Char :=
  base_name f m ++ "-segmented-".data ++ m ++ ".nii.gz".data

/-- Common stem `{base}-{modality}` of the requested and actual output
names. -/
def vrdf_stem (f m : List Char) : List Char :=
  base_name f m ++ "-".data ++ m

/-- Model of `vrdf_filename` (line 157): the requested output name
`{base}-{modality}.vrdf`. -/
def vrdf_filename (f m : List Char) : List Char :=
  vrdf_stem f m ++ ".vrdf".data

/-- Model of `actual_vrdf_filename` (line 171): the name the pipeline reports,
`{base}-{modality}_lw.vrdf`. -/
def actual_vrdf_filename (f m : List Char) : List Char :=
  vrdf_stem f m ++ "_lw.vrdf".data

/-- Modelled from the spec: the internal behaviour of the external
Encoder (`encode.py`, not part of this repository's sources) is not
available; per the spec's naming contract and the controller's own
comment (line 170), the Encoder writes the requested output name with
an implementation-defined suffix `_lw` inserted before the `.vrdf`
extension. -/
def encoderProducedName (requested : List Char) : List Char :=
  requested.take (requested.length - (".vrdf".data).length) ++ "_lw.vrdf".data

/-! Pipeline.  The filesystem inside the study directory is a Boolean
membership predicate on names; external outcomes that depend on data
outside this core (decomposition I/O, the Encoder call, the unlink
syscall, study-directory existence) are injected Booleans. -/

/-- A set of file names (the contents of the study directory). -/
def FSet : Type := List Char → Bool

/-- Create/overwrite a file. -/
def fsInsert (x : List Char) (f : FSet) : FSet :=
  fun n => if n = x then true else f n

/-- Delete a file. -/
def fsRemove (x : List Char) (f : FSet) : FSet :=
  fun n => if n = x then false else f n

/-- The error taxonomy of the pipeline: each constructor stands for
the exception the Python code raises at the corresponding point. -/
inductive PErr where
  | dirNotFound
  | modalityUnresolved
  | inputNotFound
  | segNotFound
  | decomposeFailed
  | encodeFailed
  | unlinkFailed
deriving DecidableEq

/-- Model of `perform_segmentation_from_filename` (lines 36-96), at the level
of control flow and filesystem effects: extract the modality (raising
first, before any filesystem access), check the input file then the
segmentation file exist, run load/decompose/save (success injected as
`decOk`; on failure nothing is written), and on success write the
segmented intermediate file and return its name. -/
def segStep (f sf : List Char) (fs : FSet) (decOk : Bool) :
    Except PErr (List Char) × FSet :=
  match extract_modality_from_filename f with
  | none => (Except.error PErr.modalityUnresolved, fs)
  | some m =>
    if fs f = false then (Except.error PErr.inputNotFound, fs)
    else if fs sf = false then (Except.error PErr.segNotFound, fs)
    else if decOk = false then (Except.error PErr.decomposeFailed, fs)
    else (Except.ok (segmented_filename f m), fsInsert (segmented_filename f m) fs)

/-- Model of `perform_segmentation_and_conversion_from_filename` (lines
137-176): check the study directory, run the segmentation step,
re-derive the names, call the Encoder (on success it writes its actual
output file; on failure the error propagates and the intermediate file
is left in place), then delete the intermediate file if it exists —
the unlink is not guarded, so a failing unlink propagates out of the
function (the outer `except` logs and re-raises).  On success the
function returns the (now deleted) intermediate name and the
hard-coded actual output name. -/
def pipeline (f sf : List Char) (fs : FSet) (dirOk decOk encOk delOk : Bool) :
    Except PErr (List Char × List Char) × FSet :=
  if dirOk = false then (Except.error PErr.dirNotFound, fs)
  else
    match segStep f sf fs decOk with
    | (Except.error e, fs1) => (Except.error e, fs1)
    | (Except.ok segname, fs1) =>
      match extract_modality_from_filename f with
      | none => (Except.error PErr.modalityUnresolved, fs1)
      | some m =>
        if encOk = false then (Except.error PErr.encodeFailed, fs1)
        else
          let fs2 := fsInsert (encoderProducedName (vrdf_filename f m)) fs1
          if fs2 segname = true then
            if delOk = true then
              (Except.ok (segname, actual_vrdf_filename f m), fsRemove segname fs2)
            else (Except.error PErr.unlinkFailed, fs2)
          else (Except.ok (segname, actual_vrdf_filename f m), fs2)

/-! Volume loader (`load_3d`, lines 28-34). -/

/-- Element-type tag of a stored or in-memory array. -/
inductive DType where
  | float32
  | float64
  | int16
  | int32
  | uint8
  | uint16
deriving DecidableEq

/-- An n-dimensional array: a dims list, a dtype tag and a total
valuation on multi-indices. -/
structure NdArr where
  dims : List ℕ
  dtype : DType
  val : List ℕ → ℚ

/-- Model of `load_3d` (lines 28-34): `get_fdata()` converts to float64 without
changing stored values (exact in this rational model); if the result
has more than 3 dimensions, `data[..., 0]` — applied once — drops the
trailing axis, keeping its first slab; finally `astype(np.float32)`
tags the result float32. -/
def load_3d (a : NdArr) : NdArr :=
  let fdata : NdArr := { a with dtype := DType.float64 }
  let d : NdArr :=
    if fdata.dims.length > 3 then
      { dims := fdata.dims.dropLast, dtype := fdata.dtype
        val := fun ix => fdata.val (ix ++ [0]) }
    else fdata
  { d with dtype := DType.float32 }

/-! Concrete instances used by witnesses and counterexamples. -/

/-- Rational 19/10 given in lowest terms, so that `truncQ` reduces
definitionally. -/
def q19d10 : ℚ := ⟨19, 10, by decide, by decide⟩

/-- Rational 1/2 in lowest terms. -/
def q1d2 : ℚ := ⟨1, 2, by decide, by decide⟩

/-- A 1×1×1 volume of intensity 5. -/
def cvol1 : Arr3 := ⟨(1, 1, 1), fun _ => 5⟩

/-- A 1×1×1 labelmap of (raw float) value 2. -/
def cseg1 : Arr3 := ⟨(1, 1, 1), fun _ => 2⟩

/-- A 2×1×1 labelmap whose every value is 7 — no value in `LABELS`. -/
def cseg7 : Arr3 := ⟨(2, 1, 1), fun _ => 7⟩

/-- A 2×1×1 labelmap whose every value is 1 — the label 1 occurs. -/
def csegL1 : Arr3 := ⟨(2, 1, 1), fun _ => 1⟩

/-- A 2×1×1 volume of intensity 5. -/
def cvol2 : Arr3 := ⟨(2, 1, 1), fun _ => 5⟩

/-- A 2×1×1 labelmap holding 1.9 at voxel (0,0,0) and 0.5 at voxel
(1,0,0). -/
def csegFrac : Arr3 := ⟨(2, 1, 1), fun p => if p.1 = 0 then q19d10 else q1d2⟩

/-- Concrete input filename `a-t1n.nii.gz`. -/
def cFile : List Char := "a-t1n.nii.gz".data

/-- Concrete segmentation filename `a-seg.nii.gz`. -/
def cSeg : List Char := "a-seg.nii.gz".data

/-- Concrete filename with an unsupported modality token. -/
def cBadFile : List Char := "x-t3z.nii.gz".data

/-- Base string that does not end in a modality suffix but contains
one in its interior. -/
def cTrickyBase : List Char := "x-t1n.nii.gzy".data

/-- Initial study-directory contents: exactly the input file and the
segmentation file. -/
def cFS : FSet := fun n => if n = cFile then true else if n = cSeg then true else false

/-- The intermediate name produced from `cFile`. -/
def cSegmented : List Char := "a-segmented-t1n.nii.gz".data

/-- The actual output name reported for `cFile`. -/
def cActual : List Char := "a-t1n_lw.vrdf".data

/-- A 5-dimensional stored field (all dims 1, values 0, int16). -/
def cArr5 : NdArr := ⟨[1, 1, 1, 1, 1], DType.int16, fun _ => 0⟩

/-- A 4-dimensional stored field. -/
def cArr4 : NdArr := ⟨[2, 2, 2, 3], DType.uint16, fun ix => (ix.headI : ℚ)⟩

/-! Helper lemmas about the decomposition. -/

theorem inBoundsB_eq_true (d p : ℕ × ℕ × ℕ) : inBoundsB d p = true ↔ inBounds d p := by
  simp [inBoundsB, inBounds, and_assoc]

theorem maskAny_eq_true (m : Mask3) :
    maskAny m = true ↔ ∃ p, inBounds m.dims p ∧ m.val p = true := by
  unfold maskAny
  simp only [List.any_eq_true, List.mem_range]
  constructor
  · rintro ⟨i, hi, j, hj, k, hk, hv⟩
    exact ⟨(i, j, k), ⟨hi, hj, hk⟩, hv⟩
  · rintro ⟨⟨i, j, k⟩, ⟨hi, hj, hk⟩, hv⟩
    exact ⟨i, hi, j, hj, k, hk, hv⟩

theorem decompose_ok (vol seg : Arr3) (labels : List ℤ) (h : seg.dims = vol.dims) :
    decompose vol seg labels = Except.ok (decomposeOut vol seg labels) := by
  unfold decompose
  have hc : (labels.any fun lab =>
      maskAny (mkMask seg lab) && decide (seg.dims ≠ vol.dims)) = false := by
    simp [h]
  rw [hc]
  simp

theorem decomposeOut_val (vol seg : Arr3) (labels : List ℤ) (h : seg.dims = vol.dims)
    (p : ℕ × ℕ × ℕ) (hp : inBounds vol.dims p) (s : ℕ) (hs : s < labels.length) :
    (decomposeOut vol seg labels).val p s =
      if segInt seg p = labels[s] then vol.val p else 0 := by
  unfold decomposeOut
  simp only [dif_pos hs, List.get_eq_getElem]
  by_cases hv : segInt seg p = labels[s]
  · have hm : (mkMask seg labels[s]).val p = true := by
      simp [mkMask, hv]
    have hbp : inBounds (mkMask seg labels[s]).dims p := by
      simpa [mkMask, h] using hp
    have ha : maskAny (mkMask seg labels[s]) = true :=
      (maskAny_eq_true _).mpr ⟨p, hbp, hm⟩
    have hb : inBoundsB (mkMask seg labels[s]).dims p = true :=
      (inBoundsB_eq_true _ _).mpr hbp
    simp [ha, hm, hb, hv]
  · have hm : (mkMask seg labels[s]).val p = false := by
      simp [mkMask, hv]
    simp [hm, hv]

theorem decomposeOut_val_oob (vol seg : Arr3) (labels : List ℤ)
    (p : ℕ × ℕ × ℕ) (s : ℕ) (hs : ¬ s < labels.length) :
    (decomposeOut vol seg labels).val p s = 0 := by
  unfold decomposeOut
  simp [dif_neg hs]

/-- C1: for every volume and labelmap of the same shape, with the
fixed ordered label set [0,1,2,3] (distinct labels), the decomposition
succeeds and at every voxel: channel `s` holds the original intensity
when the labelmap value equals `LABELS[s]`, every other channel is
zero there, a labelmap value outside the label set leaves all channels
zero, and hence at most one channel is non-zero per voxel. -/
theorem decompose_channel_exclusivity (vol seg : Arr3) (hdim : seg.dims = vol.dims) :
    ∃ out, decompose vol seg LABELS = Except.ok out ∧
      ∀ p, inBounds vol.dims p →
        (∀ s (hs : s < LABELS.length),
          (segInt seg p = LABELS[s] → out.val p s = vol.val p) ∧
          (segInt seg p ≠ LABELS[s] → out.val p s = 0)) ∧
        (segInt seg p ∉ LABELS → ∀ s, out.val p s = 0) ∧
        (∀ s t, out.val p s ≠ 0 → out.val p t ≠ 0 → s = t) := by
  refine ⟨decomposeOut vol seg LABELS, decompose_ok vol seg LABELS hdim,
    fun p hp => ⟨?_, ?_, ?_⟩⟩
  · intro s hs
    rw [decomposeOut_val vol seg LABELS hdim p hp s hs]
    constructor
    · intro hv; rw [if_pos hv]
    · intro hv; rw [if_neg hv]
  · intro hmem s
    by_cases hs : s < LABELS.length
    · rw [decomposeOut_val vol seg LABELS hdim p hp s hs, if_neg]
      intro hEq
      exact hmem (hEq ▸ List.getElem_mem hs)
    · exact decomposeOut_val_oob vol seg LABELS p s hs
  · intro s t hsv htv
    have hs : s < LABELS.length := by
      by_contra hns; exact hsv (decomposeOut_val_oob vol seg LABELS p s hns)
    have ht : t < LABELS.length := by
      by_contra hnt; exact htv (decomposeOut_val_oob vol seg LABELS p t hnt)
    have hvs : segInt seg p = LABELS[s] := by
      by_contra hne
      exact hsv (by rw [decomposeOut_val vol seg LABELS hdim p hp s hs, if_neg hne])
    have hvt : segInt seg p = LABELS[t] := by
      by_contra hne
      exact htv (by rw [decomposeOut_val vol seg LABELS hdim p hp t ht, if_neg hne])
    have hnd : LABELS.Nodup := by decide
    have hgl : LABELS.get ⟨s, hs⟩ = LABELS.get ⟨t, ht⟩ := by
      simp only [List.get_eq_getElem]
      rw [← hvs, hvt]
    exact congrArg Fin.val ((List.Nodup.get_inj_iff hnd).mp hgl)

/-- Witness for C1: a concrete 1×1×1 volume of intensity 5 whose
labelmap value is 2 — channel 2 receives the intensity. -/
theorem decompose_channel_exclusivity_witness :
    ∃ out, decompose cvol1 cseg1 LABELS = Except.ok out ∧ out.val (0, 0, 0) 2 = 5 := by
  obtain ⟨out, hok, hprop⟩ := decompose_channel_exclusivity cvol1 cseg1 rfl
  exact ⟨out, hok, ((hprop (0, 0, 0) (by decide)).1 2 (by decide)).1 (by decide)⟩

/-- Counterexample to C2 as stated: a 1×1×1 volume against a 2×1×1
labelmap whose values (7) never hit the label set — every mask is
empty, the `np.any` guard skips the only failing operation, and the
decomposition silently succeeds instead of failing. -/
theorem decompose_shape_mismatch_cex :
    cseg7.dims ≠ cvol1.dims ∧
      ¬ ∃ e, decompose cvol1 cseg7 LABELS = Except.error e := by
  refine ⟨by decide, ?_⟩
  rintro ⟨e, he⟩
  have hok : decompose cvol1 cseg7 LABELS =
      Except.ok (decomposeOut cvol1 cseg7 LABELS) := rfl
  rw [hok] at he
  exact Except.noConfusion he

/-- C2 (amended): on mismatched volume/labelmap shapes the
decomposition fails (numpy's boolean-index shape error) if and only if
at least one label of the label set occurs in the cast labelmap; when
no label of the set occurs, it silently succeeds.  It never truncates
or pads: no output is produced on failure. -/
theorem decompose_shape_mismatch_amended (vol seg : Arr3) (h : seg.dims ≠ vol.dims) :
    (∃ e, decompose vol seg LABELS = Except.error e) ↔
      ∃ p, inBounds seg.dims p ∧ segInt seg p ∈ LABELS := by
  have hd : decide (seg.dims ≠ vol.dims) = true := by simp [h]
  have hcond : (LABELS.any fun lab =>
      maskAny (mkMask seg lab) && decide (seg.dims ≠ vol.dims)) = true ↔
      ∃ p, inBounds seg.dims p ∧ segInt seg p ∈ LABELS := by
    simp only [hd, Bool.and_true, List.any_eq_true]
    constructor
    · rintro ⟨lab, hmem, hany⟩
      obtain ⟨p, hbp, hv⟩ := (maskAny_eq_true _).mp hany
      have hlab : segInt seg p = lab := by simpa [mkMask] using hv
      exact ⟨p, by simpa [mkMask] using hbp, hlab ▸ hmem⟩
    · rintro ⟨p, hbp, hmem⟩
      exact ⟨segInt seg p, hmem,
        (maskAny_eq_true _).mpr ⟨p, by simpa [mkMask] using hbp, by simp [mkMask]⟩⟩
  unfold decompose
  by_cases hC : (LABELS.any fun lab =>
      maskAny (mkMask seg lab) && decide (seg.dims ≠ vol.dims)) = true
  · rw [if_pos hC]
    exact ⟨fun _ => hcond.mp hC, fun _ => ⟨SegError.indexShapeMismatch, rfl⟩⟩
  · rw [if_neg hC]
    constructor
    · rintro ⟨e, he⟩
      exact Except.noConfusion he
    · intro hex
      exact absurd (hcond.mpr hex) hC

/-- Witness for the amended C2: a 2×1×1 labelmap of value 1 against a
1×1×1 volume does fail. -/
theorem decompose_shape_mismatch_amended_witness :
    ∃ e, decompose cvol1 csegL1 LABELS = Except.error e :=
  (decompose_shape_mismatch_amended cvol1 csegL1 (by decide)).mpr
    ⟨(0, 0, 0), by decide, by decide⟩

/-- C10: the labelmap is loaded as floating point and cast to integer
by truncation toward zero (`truncQ`) before masking, so channel `s`
holds the intensity exactly at voxels whose truncated stored value
equals `LABELS[s]`. -/
theorem decompose_truncation_semantics (vol seg : Arr3) (hdim : seg.dims = vol.dims) :
    ∃ out, decompose vol seg LABELS = Except.ok out ∧
      ∀ p, inBounds vol.dims p → ∀ s (hs : s < LABELS.length),
        out.val p s = if truncQ (seg.val p) = LABELS[s] then vol.val p else 0 :=
  ⟨decomposeOut vol seg LABELS, decompose_ok vol seg LABELS hdim,
    fun p hp s hs => decomposeOut_val vol seg LABELS hdim p hp s hs⟩

/-- Witness for C10: stored value 1.9 contributes to the channel of
label 1 (and not to channel 0), stored value 0.5 contributes to the
channel of label 0 rather than being dropped. -/
theorem decompose_truncation_semantics_witness :
    ∃ out, decompose cvol2 csegFrac LABELS = Except.ok out ∧
      out.val (0, 0, 0) 1 = 5 ∧ out.val (0, 0, 0) 0 = 0 ∧ out.val (1, 0, 0) 0 = 5 := by
  obtain ⟨out, hok, hval⟩ := decompose_truncation_semantics cvol2 csegFrac rfl
  refine ⟨out, hok, ?_, ?_, ?_⟩
  · rw [hval (0, 0, 0) (by decide) 1 (by decide), if_pos (by decide)]; rfl
  · rw [hval (0, 0, 0) (by decide) 0 (by decide), if_neg (by decide)]
  · rw [hval (1, 0, 0) (by decide) 0 (by decide), if_pos (by decide)]; rfl

/-- Counterexample to C7 as stated: a 5-dimensional stored field —
`data[..., 0]` is applied once, so the loader returns a 4-dimensional
array, not a 3D slab. -/
theorem load_3d_over3d_cex :
    ¬ (3 < cArr5.dims.length →
        (load_3d cArr5).dims.length = 3 ∧ (load_3d cArr5).dtype = DType.float32) := by
  intro h
  exact absurd (h (by decide)).1 (by decide)

/-- C7 (amended): the loader always tags its output float32; for a
stored field of more than 3 dimensions it drops exactly one trailing
axis, keeping the first slab along it (so the result is 3D precisely
when the source is 4D; a d-dimensional source with d > 4 yields a
(d-1)-dimensional array). -/
theorem load_3d_amended (a : NdArr) :
    (load_3d a).dtype = DType.float32 ∧
      (3 < a.dims.length →
        (load_3d a).dims = a.dims.dropLast ∧
        ∀ ix, (load_3d a).val ix = a.val (ix ++ [0])) ∧
      (a.dims.length = 4 → (load_3d a).dims.length = 3) := by
  unfold load_3d
  by_cases h : a.dims.length > 3
  · refine ⟨by simp [h], fun _ => ⟨by simp [h], fun ix => by simp [h]⟩, fun h4 => ?_⟩
    simp only [if_pos h]
    rw [List.length_dropLast, h4]
  · refine ⟨by simp [h], fun h3 => absurd h3 h, fun h4 => absurd (by omega : 3 < a.dims.length) h⟩

/-- Witness for the amended C7: the 4-D field loads to a 3-D float32
array; the 5-D field keeps dims [1,1,1,1]. -/
theorem load_3d_amended_witness :
    (load_3d cArr4).dtype = DType.float32 ∧
      (load_3d cArr4).dims.length = 3 ∧ (load_3d cArr5).dims = [1, 1, 1, 1] := by
  refine ⟨(load_3d_amended cArr4).1, (load_3d_amended cArr4).2.2 (by decide), ?_⟩
  exact ((load_3d_amended cArr5).2.1 (by decide)).1.trans (by decide)

/-! Helper lemmas about the naming contract. -/

theorem stripAllAux_nil (p : List Char) (n : ℕ) : stripAllAux p n [] = [] := by
  cases n <;> rfl

theorem endsWithL_unique (p q f : List Char) (hp : endsWithL p f = true)
    (hq : endsWithL q f = true) (hl : p.length = q.length) : p = q := by
  unfold endsWithL at hp hq
  have hp' := of_decide_eq_true hp
  have hq' := of_decide_eq_true hq
  rw [← hp', ← hq', hl]

theorem endsWithL_append_eq (b q p : List Char) (hl : p.length = q.length) :
    endsWithL p (b ++ q) = decide (q = p) := by
  unfold endsWithL
  have h1 : (b ++ q).length - p.length = b.length := by
    rw [List.length_append, hl]; omega
  rw [h1, List.drop_left]

theorem extract_append (m : List Char) (hm : m ∈ MODS) (b : List Char) :
    extract_modality_from_filename (b ++ modSuffix m) = some m := by
  have key : ∀ m', m' ∈ MODS →
      endsWithL (modSuffix m') (b ++ modSuffix m) = decide (modSuffix m = modSuffix m') := by
    intro m' hm'
    apply endsWithL_append_eq
    fin_cases hm' <;> fin_cases hm <;> decide
  unfold extract_modality_from_filename
  fin_cases hm <;>
    simp only [key _ (show "t1n".data ∈ MODS by decide),
      key _ (show "t1c".data ∈ MODS by decide),
      key _ (show "t2w".data ∈ MODS by decide),
      key _ (show "t2f".data ∈ MODS by decide)] <;>
    decide

theorem stripAllAux_append (p : List Char) (hp : p ≠ []) :
    ∀ (b : List Char) (n : ℕ), (b ++ p).length ≤ n →
      (∀ i, i < b.length → startsWithL p ((b ++ p).drop i) = false) →
      stripAllAux p n (b ++ p) = b := by
  intro b
  induction b with
  | nil =>
    intro n hn _
    simp only [List.nil_append] at hn ⊢
    match p, hp with
    | c :: ps, _ =>
      match n, hn with
      | m + 1, _ =>
        have hsw : startsWithL (c :: ps) (c :: ps) = true := by
          unfold startsWithL
          rw [List.take_length]
          simp
        show stripAllAux (c :: ps) (m + 1) (c :: ps) = []
        unfold stripAllAux
        rw [hsw]
        simp only [List.isEmpty_cons, Bool.not_false, Bool.and_true, if_true]
        rw [show (c :: ps).drop (c :: ps).length = [] from List.drop_length _]
        exact stripAllAux_nil _ _
  | cons c b' ih =>
    intro n hn hocc
    have hm' : (b' ++ p).length + 1 ≤ n := by
      have h := hn
      simp only [List.cons_append, List.length_cons] at h
      exact h
    match n, hm' with
    | m + 1, hm =>
      show stripAllAux p (m + 1) (c :: (b' ++ p)) = c :: b'
      have h0 : startsWithL p (c :: (b' ++ p)) = false := by
        have := hocc 0 (by simp)
        simpa using this
      unfold stripAllAux
      rw [h0]
      simp only [Bool.false_and, Bool.false_eq_true, if_false]
      refine congrArg (c :: ·) (ih m (by omega) fun i hi => ?_)
      have := hocc (i + 1) (by simpa using Nat.succ_lt_succ hi)
      simpa using this

theorem stripAll_append (p b : List Char) (hp : p ≠ []) (hbf : borderFree p)
    (hocc : occursIn p b = false) : stripAll p (b ++ p) = b := by
  apply stripAllAux_append p hp b (b ++ p).length le_rfl
  intro i hi
  cases hT : startsWithL p ((b ++ p).drop i) with
  | false => rfl
  | true =>
    exfalso
    rw [List.drop_append_of_le_length (le_of_lt hi)] at hT
    unfold startsWithL at hT
    have hs := of_decide_eq_true hT
    have htl : (b.drop i).length = b.length - i := List.length_drop i b
    by_cases hlen : p.length ≤ (b.drop i).length
    · have htake : (b.drop i ++ p).take p.length = (b.drop i).take p.length :=
        List.take_append_of_le_length hlen
      have hocc_i : startsWithL p (b.drop i) = true := by
        unfold startsWithL
        apply decide_eq_true
        rw [← htake, hs]
      unfold occursIn at hocc
      rw [List.any_eq_false] at hocc
      exact absurd hocc_i (by simpa using hocc i (List.mem_range.mpr (by omega)))
    · push_neg at hlen
      have h1 : (b.drop i ++ p).take p.length =
          b.drop i ++ p.take (p.length - (b.drop i).length) := by
        rw [List.take_append_eq_append_take, List.take_of_length_le (le_of_lt hlen)]
      rw [h1] at hs
      have hdrop : p.drop (b.drop i).length = p.take (p.length - (b.drop i).length) := by
        have h2 := congrArg (List.drop (b.drop i).length) hs
        rw [List.drop_left] at h2
        exact h2.symm
      have htpos : 0 < (b.drop i).length := by omega
      have hk := hbf (p.length - (b.drop i).length) (by omega) (by omega)
      rw [show p.length - (p.length - (b.drop i).length) = (b.drop i).length by omega] at hk
      exact hk hdrop

/-- Counterexample to C4 as stated: the base `x-t1n.nii.gzy` does not
end in any modality suffix, yet `replace` also deletes its interior
occurrence of `-t1n.nii.gz`, so re-stripping the derived filename
recovers `xy`, not the original base. -/
theorem naming_round_trip_cex :
    (MODS.all fun mm => !endsWithL (modSuffix mm) cTrickyBase) = true ∧
      extract_modality_from_filename (cTrickyBase ++ modSuffix "t1n".data) =
        some ("t1n".data) ∧
      base_name (cTrickyBase ++ modSuffix "t1n".data) ("t1n".data) ≠ cTrickyBase :=
  ⟨by decide, by decide, by decide⟩

/-- C4 (amended): for every modality token m and base b that contains
no occurrence of `-m.nii.gz` as a substring at all (not merely none at
the end), extraction from `b ++ -m.nii.gz` yields m, and the
replace-based derivation recovers exactly b, so the intermediate and
final names are built from b itself; `replace` strips every occurrence
of the suffix, so an interior occurrence in b breaks the round trip. -/
theorem naming_round_trip_amended (m b : List Char) (hm : m ∈ MODS)
    (hocc : occursIn (modSuffix m) b = false) :
    extract_modality_from_filename (b ++ modSuffix m) = some m ∧
      base_name (b ++ modSuffix m) m = b ∧
      segmented_filename (b ++ modSuffix m) m =
        b ++ "-segmented-".data ++ m ++ ".nii.gz".data ∧
      vrdf_filename (b ++ modSuffix m) m = b ++ "-".data ++ m ++ ".vrdf".data := by
  have hbase : base_name (b ++ modSuffix m) m = b := by
    apply stripAll_append (modSuffix m) b
    · simp [modSuffix]
    · fin_cases hm <;> decide
    · exact hocc
  refine ⟨extract_append m hm b, hbase, ?_, ?_⟩
  · unfold segmented_filename
    rw [hbase]
  · unfold vrdf_filename vrdf_stem
    rw [hbase]

/-- Witness for the amended C4 at base `patientA` and token `t1n`. -/
theorem naming_round_trip_amended_witness :
    extract_modality_from_filename ("patientA".data ++ modSuffix "t1n".data) =
      some ("t1n".data) ∧
    base_name ("patientA".data ++ modSuffix "t1n".data) ("t1n".data) = "patientA".data := by
  have h := naming_round_trip_amended ("t1n".data) ("patientA".data) (by decide) (by decide)
  exact ⟨h.1, h.2.1⟩

/-- C6: modality extraction succeeds with token m if and only if the
filename ends with `-m.nii.gz` for one of the four tokens t1n, t1c,
t2w, t2f (case-sensitive, anchored at the end); otherwise it fails
with the error modelling the raised ValueError, and the segmentation
step then stops before any filesystem access — the directory contents
are untouched and no existence check has run. -/
theorem extract_modality_correct (f : List Char) :
    (∀ m, extract_modality_from_filename f = some m ↔
      m ∈ MODS ∧ endsWithL (modSuffix m) f = true) ∧
    (extract_modality_from_filename f = none →
      ∀ sf fs d, segStep f sf fs d = (Except.error PErr.modalityUnresolved, fs)) := by
  constructor
  · intro m
    constructor
    · intro h
      unfold extract_modality_from_filename at h
      split_ifs at h with h1 h2 h3 h4
      · injection h with h'; subst h'; exact ⟨by decide, h1⟩
      · injection h with h'; subst h'; exact ⟨by decide, h2⟩
      · injection h with h'; subst h'; exact ⟨by decide, h3⟩
      · injection h with h'; subst h'; exact ⟨by decide, h4⟩
    · rintro ⟨hm, hsuf⟩
      have huniq : ∀ m', m' ∈ MODS → endsWithL (modSuffix m') f = true → m' = m := by
        intro m' hm' hsuf'
        have hlen : (modSuffix m').length = (modSuffix m).length := by
          fin_cases hm' <;> fin_cases hm <;> decide
        have heq : modSuffix m' = modSuffix m := endsWithL_unique _ _ _ hsuf' hsuf hlen
        unfold modSuffix at heq
        exact List.append_cancel_right (List.cons.injEq .. ▸ heq).2
      have hne : ∀ m', m' ∈ MODS → m' ≠ m → endsWithL (modSuffix m') f = false := by
        intro m' hm' hnem
        cases hE : endsWithL (modSuffix m') f with
        | false => rfl
        | true => exact absurd (huniq m' hm' hE) hnem
      unfold extract_modality_from_filename
      fin_cases hm
      · rw [if_pos hsuf]
      · rw [if_neg (by rw [hne "t1n".data (by decide) (by decide)]; simp), if_pos hsuf]
      · rw [if_neg (by rw [hne "t1n".data (by decide) (by decide)]; simp),
          if_neg (by rw [hne "t1c".data (by decide) (by decide)]; simp), if_pos hsuf]
      · rw [if_neg (by rw [hne "t1n".data (by decide) (by decide)]; simp),
          if_neg (by rw [hne "t1c".data (by decide) (by decide)]; simp),
          if_neg (by rw [hne "t2w".data (by decide) (by decide)]; simp), if_pos hsuf]
  · intro hnone sf fs d
    unfold segStep
    rw [hnone]

/-- Witness for C6: `a-t1n.nii.gz` resolves to t1n; `x-t3z.nii.gz`
fails and leaves the directory contents unchanged. -/
theorem extract_modality_correct_witness :
    extract_modality_from_filename cFile = some ("t1n".data) ∧
      segStep cBadFile cSeg cFS true = (Except.error PErr.modalityUnresolved, cFS) :=
  ⟨((extract_modality_correct cFile).1 ("t1n".data)).mpr ⟨by decide, by decide⟩,
    (extract_modality_correct cBadFile).2 (by decide) cSeg cFS true⟩

/-! Helper lemmas about the pipeline. -/

theorem encoderProducedName_eq (f m : List Char) :
    encoderProducedName (vrdf_filename f m) = actual_vrdf_filename f m := by
  unfold encoderProducedName vrdf_filename actual_vrdf_filename
  have h1 : (vrdf_stem f m ++ ".vrdf".data).length - (".vrdf".data).length =
      (vrdf_stem f m).length := by
    rw [List.length_append]; omega
  rw [h1, List.take_left]

theorem segmented_ne_actual (f m : List Char) :
    segmented_filename f m ≠ actual_vrdf_filename f m := by
  intro h
  have hlen := congrArg List.length h
  have e1 : ("-segmented-".data).length = 11 := by decide
  have e2 : (".nii.gz".data).length = 7 := by decide
  have e3 : ("-".data).length = 1 := by decide
  have e4 : ("_lw.vrdf".data).length = 8 := by decide
  simp only [segmented_filename, actual_vrdf_filename, vrdf_stem,
    List.length_append, e1, e2, e3, e4] at hlen
  omega

theorem segStep_ok (f sf : List Char) (fs : FSet) (d : Bool) (sn : List Char) (fs1 : FSet)
    (h : segStep f sf fs d = (Except.ok sn, fs1)) :
    ∃ m, extract_modality_from_filename f = some m ∧
      sn = segmented_filename f m ∧ fs1 = fsInsert (segmented_filename f m) fs ∧
      fs f = true ∧ fs sf = true ∧ d = true := by
  unfold segStep at h
  cases hext : extract_modality_from_filename f with
  | none =>
    rw [hext] at h
    exact absurd h (by simp)
  | some m =>
    rw [hext] at h
    split_ifs at h with h1 h2 h3
    · exact absurd h (by simp)
    · exact absurd h (by simp)
    · exact absurd h (by simp)
    · simp only [Prod.mk.injEq, Except.ok.injEq] at h
      obtain ⟨hsn, hfs⟩ := h
      simp only [Bool.not_eq_false] at h1 h2 h3
      exact ⟨m, rfl, hsn.symm, hfs.symm, h1, h2, h3⟩

theorem pipeline_ok (f sf : List Char) (fs : FSet) (dOk cOk eOk delOk : Bool)
    (pr : List Char × List Char) (fs2 : FSet)
    (h : pipeline f sf fs dOk cOk eOk delOk = (Except.ok pr, fs2)) :
    ∃ m, extract_modality_from_filename f = some m ∧
      pr.1 = segmented_filename f m ∧
      pr.2 = actual_vrdf_filename f m ∧
      fs2 pr.1 = false ∧
      fs2 pr.2 = true := by
  unfold pipeline at h
  by_cases hdir : dOk = false
  · rw [if_pos hdir] at h
    exact absurd h (by simp)
  rw [if_neg hdir] at h
  cases hsegr : segStep f sf fs cOk with
  | mk r fs1 =>
    rw [hsegr] at h
    cases r with
    | error e => exact absurd h (by simp)
    | ok segname =>
      obtain ⟨m, hext, hsn, hfs1, _, _, _⟩ := segStep_ok f sf fs cOk segname fs1 hsegr
      rw [hext] at h
      dsimp only at h
      by_cases henc : eOk = false
      · rw [if_pos henc] at h
        exact absurd h (by simp)
      rw [if_neg henc] at h
      by_cases hin : fsInsert (encoderProducedName (vrdf_filename f m)) fs1 segname = true
      · rw [if_pos hin] at h
        by_cases hdel : delOk = true
        · rw [if_pos hdel] at h
          simp only [Prod.mk.injEq, Except.ok.injEq] at h
          obtain ⟨hpr, hfs2⟩ := h
          subst hpr
          refine ⟨m, hext, hsn, rfl, ?_, ?_⟩
          · rw [← hfs2]
            simp [fsRemove]
          · rw [← hfs2]
            have hne : actual_vrdf_filename f m ≠ segname := by
              rw [hsn]
              exact fun hEq => segmented_ne_actual f m hEq.symm
            simp only [fsRemove, fsInsert]
            rw [if_neg hne, if_pos (encoderProducedName_eq f m).symm]
        · rw [if_neg hdel] at h
          exact absurd h (by simp)
      · rw [if_neg hin] at h
        simp only [Prod.mk.injEq, Except.ok.injEq] at h
        obtain ⟨hpr, hfs2⟩ := h
        subst hpr
        refine ⟨m, hext, hsn, rfl, ?_, ?_⟩
        · rw [← hfs2]
          simpa using hin
        · rw [← hfs2]
          simp [fsInsert, encoderProducedName_eq]

/-- C3: for every run that reaches the encoding step (the segmentation
step produced the intermediate file), an Encoder failure fails the run
and the intermediate segmented file still exists afterwards, while
after any run that reports success the intermediate file is absent. -/
theorem pipeline_cleanup_on_success_only (f sf : List Char) (fs : FSet)
    (decOk delOk : Bool) (segname : List Char) (fs1 : FSet)
    (hseg : segStep f sf fs decOk = (Except.ok segname, fs1)) :
    ((pipeline f sf fs true decOk false delOk).1 = Except.error PErr.encodeFailed ∧
      (pipeline f sf fs true decOk false delOk).2 segname = true) ∧
    (∀ pr fs2, pipeline f sf fs true decOk true delOk = (Except.ok pr, fs2) →
      fs2 segname = false) := by
  obtain ⟨m, hext, hsn, hfs1, _, _, _⟩ := segStep_ok f sf fs decOk segname fs1 hseg
  constructor
  · have hrun : pipeline f sf fs true decOk false delOk =
        (Except.error PErr.encodeFailed, fs1) := by
      unfold pipeline
      rw [hseg, hext]
      dsimp only
      simp
    rw [hrun]
    refine ⟨rfl, ?_⟩
    rw [hfs1]
    simp [fsInsert, hsn]
  · intro pr fs2 h
    obtain ⟨m', hext', h1, _, h3, _⟩ := pipeline_ok f sf fs true decOk true delOk pr fs2 h
    have hm : m' = m := by
      rw [hext] at hext'
      injection hext' with h''
      exact h''.symm
    rw [hsn, ← hm, ← h1]
    exact h3

/-- Witness for C3: in the concrete run, the intermediate file
survives an encoder failure and is gone after a successful run. -/
theorem pipeline_cleanup_on_success_only_witness :
    (pipeline cFile cSeg cFS true true false true).2 cSegmented = true ∧
      (pipeline cFile cSeg cFS true true true true).2 cSegmented = false := by
  have h := pipeline_cleanup_on_success_only cFile cSeg cFS true true cSegmented
    (fsInsert cSegmented cFS) rfl
  exact ⟨h.1.2, h.2 (cSegmented, cActual)
    (fsRemove cSegmented (fsInsert cActual (fsInsert cSegmented cFS))) rfl⟩

/-- Counterexample to C5 as stated: in a concrete run where the
Encoder call succeeds and the deletion of the intermediate file fails,
the run does not complete successfully — the deletion error is logged
and re-raised by the outer handler, so no final artifact name is
reported. -/
theorem pipeline_unlink_failure_cex :
    (pipeline cFile cSeg cFS true true true false).1 = Except.error PErr.unlinkFailed ∧
      ¬ ∃ pr, (pipeline cFile cSeg cFS true true true false).1 = Except.ok pr := by
  refine ⟨rfl, ?_⟩
  rintro ⟨pr, hp⟩
  rw [show (pipeline cFile cSeg cFS true true true false).1 =
    Except.error PErr.unlinkFailed from rfl] at hp
  exact Except.noConfusion hp

/-- C5 (amended): when the Encoder call succeeds but the deletion of
the (existing) intermediate file fails, the failure propagates: the
run fails with the deletion error instead of completing, and the
intermediate file is still present.  Only a deletion skipped because
the file is already absent is tolerated silently. -/
theorem pipeline_unlink_failure_amended (f sf : List Char) (fs : FSet)
    (decOk : Bool) (segname : List Char) (fs1 : FSet)
    (hseg : segStep f sf fs decOk = (Except.ok segname, fs1)) :
    (pipeline f sf fs true decOk true false).1 = Except.error PErr.unlinkFailed ∧
      (pipeline f sf fs true decOk true false).2 segname = true := by
  obtain ⟨m, hext, hsn, hfs1, _, _, _⟩ := segStep_ok f sf fs decOk segname fs1 hseg
  have hfs1seg : fs1 segname = true := by
    rw [hfs1, hsn]
    simp [fsInsert]
  have hfs2seg : fsInsert (encoderProducedName (vrdf_filename f m)) fs1 segname = true := by
    unfold fsInsert
    split_ifs <;> simp [hfs1seg]
  have hrun : pipeline f sf fs true decOk true false =
      (Except.error PErr.unlinkFailed,
        fsInsert (encoderProducedName (vrdf_filename f m)) fs1) := by
    unfold pipeline
    rw [hseg, hext]
    dsimp only
    rw [if_pos hfs2seg]
    simp
  rw [hrun]
  exact ⟨rfl, hfs2seg⟩

/-- Witness for the amended C5 at the concrete run. -/
theorem pipeline_unlink_failure_amended_witness :
    (pipeline cFile cSeg cFS true true true false).1 = Except.error PErr.unlinkFailed ∧
      (pipeline cFile cSeg cFS true true true false).2 cSegmented = true :=
  pipeline_unlink_failure_amended cFile cSeg cFS true cSegmented
    (fsInsert cSegmented cFS) rfl

/-- C8: on every successful pipeline run, the reported final artifact
name (second component of the returned pair) equals the name the
Encoder actually produced — the requested name with the
implementation-defined `_lw` suffix inserted before the extension —
and that file is present afterwards. -/
theorem pipeline_reports_encoder_name (f sf : List Char) (fs : FSet)
    (dOk cOk eOk delOk : Bool) (pr : List Char × List Char) (fs2 : FSet)
    (h : pipeline f sf fs dOk cOk eOk delOk = (Except.ok pr, fs2)) :
    ∃ m, extract_modality_from_filename f = some m ∧
      pr.2 = encoderProducedName (vrdf_filename f m) ∧ fs2 pr.2 = true := by
  obtain ⟨m, hext, _, h2, _, h4⟩ := pipeline_ok f sf fs dOk cOk eOk delOk pr fs2 h
  exact ⟨m, hext, by rw [h2, encoderProducedName_eq], h4⟩

/-- Witness for C8 at the concrete successful run. -/
theorem pipeline_reports_encoder_name_witness :
    ∃ m, extract_modality_from_filename cFile = some m ∧
      (cSegmented, cActual).2 = encoderProducedName (vrdf_filename cFile m) ∧
      (fsRemove cSegmented (fsInsert cActual (fsInsert cSegmented cFS)))
        (cSegmented, cActual).2 = true :=
  pipeline_reports_encoder_name cFile cSeg cFS true true true true (cSegmented, cActual)
    (fsRemove cSegmented (fsInsert cActual (fsInsert cSegmented cFS))) rfl

/-- C9: on every successful pipeline run, the first component of the
returned pair is the intermediate segmented file's name, and the run
has deleted that file: the caller receives a path that no longer
exists in the study directory. -/
theorem pipeline_returns_deleted_intermediate (f sf : List Char) (fs : FSet)
    (dOk cOk eOk delOk : Bool) (pr : List Char × List Char) (fs2 : FSet)
    (h : pipeline f sf fs dOk cOk eOk delOk = (Except.ok pr, fs2)) :
    ∃ m, extract_modality_from_filename f = some m ∧
      pr.1 = segmented_filename f m ∧ fs2 pr.1 = false := by
  obtain ⟨m, hext, h1, _, h3, _⟩ := pipeline_ok f sf fs dOk cOk eOk delOk pr fs2 h
  exact ⟨m, hext, h1, h3⟩

/-- Witness for C9 at the concrete successful run. -/
theorem pipeline_returns_deleted_intermediate_witness :
    ∃ m, extract_modality_from_filename cFile = some m ∧
      (cSegmented, cActual).1 = segmented_filename cFile m ∧
      (fsRemove cSegmented (fsInsert cActual (fsInsert cSegmented cFS)))
        (cSegmented, cActual).1 = false :=
  pipeline_returns_deleted_intermediate cFile cSeg cFS true true true true
    (cSegmented, cActual)
    (fsRemove cSegmented (fsInsert cActual (fsInsert cSegmented cFS))) rfl

end VRDF
